import Mathlib

/-!
Verification of the ASE transport lead self-energy module
(`ase/transport/selfenergy.py`).

Python complex scalars are modelled exactly by complex numbers with
rational components (`CQ`), so that all arithmetic appearing in the code
(complex add/sub/mul, scalar-matrix operations, conjugate transpose,
dense linear solve) is executable and exact.  Machine floating point is
not modelled; the numeric formulas are carried over field arithmetic.
-/

/-- Complex numbers with rational real and imaginary parts.  Models the
Python complex scalars used throughout `selfenergy.py` exactly. -/
structure CQ where
  re : ℚ
  im : ℚ
  deriving DecidableEq

namespace CQ

/-- Squared modulus `re² + im²`.  For `c ≥ 0`, `|z| ≤ c` holds iff
`normSq z ≤ c²`, which lets the convergence test of the decimation loop
be expressed without real square roots. -/
def normSq (z : CQ) : ℚ := z.re * z.re + z.im * z.im

/-- Complex conjugate, as used by `numpy.conj` / the `dagger` helper of
`ase.transport.tools`. -/
def conj (z : CQ) : CQ := ⟨z.re, -z.im⟩

/-- The imaginary unit `1j`. -/
def I : CQ := ⟨0, 1⟩

instance : Zero CQ := ⟨⟨0, 0⟩⟩

instance : One CQ := ⟨⟨1, 0⟩⟩

instance : Add CQ := ⟨fun x y => ⟨x.re + y.re, x.im + y.im⟩⟩

instance : Neg CQ := ⟨fun x => ⟨-x.re, -x.im⟩⟩

instance : Mul CQ := ⟨fun x y => ⟨x.re * y.re - x.im * y.im, x.re * y.im + x.im * y.re⟩⟩

instance : Inv CQ := ⟨fun x => ⟨x.re / normSq x, -x.im / normSq x⟩⟩

@[ext] theorem ext {x y : CQ} (h1 : x.re = y.re) (h2 : x.im = y.im) : x = y := by
  cases x; cases y; cases h1; cases h2; rfl

@[simp] theorem zero_re : (0 : CQ).re = 0 := rfl

@[simp] theorem zero_im : (0 : CQ).im = 0 := rfl

@[simp] theorem one_re : (1 : CQ).re = 1 := rfl

@[simp] theorem one_im : (1 : CQ).im = 0 := rfl

@[simp] theorem add_re (x y : CQ) : (x + y).re = x.re + y.re := rfl

@[simp] theorem add_im (x y : CQ) : (x + y).im = x.im + y.im := rfl

@[simp] theorem neg_re (x : CQ) : (-x).re = -x.re := rfl

@[simp] theorem neg_im (x : CQ) : (-x).im = -x.im := rfl

@[simp] theorem mul_re (x y : CQ) : (x * y).re = x.re * y.re - x.im * y.im := rfl

@[simp] theorem mul_im (x y : CQ) : (x * y).im = x.re * y.im + x.im * y.re := rfl

@[simp] theorem inv_re (x : CQ) : x⁻¹.re = x.re / normSq x := rfl

@[simp] theorem inv_im (x : CQ) : x⁻¹.im = -x.im / normSq x := rfl

instance : CommRing CQ where
  add_assoc := by intros; ext <;> simp <;> ring
  zero_add := by intros; ext <;> simp
  add_zero := by intros; ext <;> simp
  add_comm := by intros; ext <;> simp <;> ring
  mul_assoc := by intros; ext <;> simp <;> ring
  one_mul := by intros; ext <;> simp
  mul_one := by intros; ext <;> simp
  left_distrib := by intros; ext <;> simp <;> ring
  right_distrib := by intros; ext <;> simp <;> ring
  zero_mul := by intros; ext <;> simp
  mul_zero := by intros; ext <;> simp
  mul_comm := by intros; ext <;> simp <;> ring
  neg_add_cancel := by intros; ext <;> simp
  nsmul := nsmulRec
  zsmul := zsmulRec

@[simp] theorem sub_re (x y : CQ) : (x - y).re = x.re - y.re := by
  show (x + -y).re = x.re - y.re
  simp
  ring

@[simp] theorem sub_im (x y : CQ) : (x - y).im = x.im - y.im := by
  show (x + -y).im = x.im - y.im
  simp
  ring

instance : Field CQ where
  exists_pair_ne := ⟨0, 1, fun h => by
    have : (0 : CQ).re = (1 : CQ).re := by rw [h]
    simp at this⟩
  mul_inv_cancel := by
    rintro ⟨a, b⟩ h
    have hab : ¬(a = 0 ∧ b = 0) := by
      rintro ⟨ha, hb⟩
      exact h (by ext <;> simp [ha, hb])
    have hpos : 0 < a * a + b * b := by
      rcases eq_or_ne a 0 with ha | ha
      · have hb : b ≠ 0 := fun hb => hab ⟨ha, hb⟩
        rcases lt_or_gt_of_ne hb with h' | h' <;> nlinarith
      · rcases lt_or_gt_of_ne ha with h' | h' <;> nlinarith
    have hne : a * a + b * b ≠ 0 := ne_of_gt hpos
    ext <;> simp [normSq] <;> field_simp <;> ring
  inv_zero := by ext <;> simp [normSq]
  nnqsmul := _
  qsmul := _

theorem conj_zero : conj 0 = 0 := by ext <;> simp [conj]

theorem conj_add (x y : CQ) : conj (x + y) = conj x + conj y := by
  ext <;> simp [conj] <;> ring

theorem conj_mul (x y : CQ) : conj (x * y) = conj x * conj y := by
  ext <;> simp [conj] <;> ring

theorem conj_conj (x : CQ) : conj (conj x) = x := by ext <;> simp [conj]

theorem conj_sub (x y : CQ) : conj (x - y) = conj x - conj y := by
  ext <;> simp [conj] <;> ring

theorem conj_I : conj I = -I := by ext <;> simp [conj, I]

theorem normSq_zero : normSq 0 = 0 := by simp [normSq]

theorem normSq_nonneg (z : CQ) : 0 ≤ normSq z := by
  have := mul_self_nonneg z.re
  have := mul_self_nonneg z.im
  simp only [normSq]
  linarith

end CQ

/-- Complex matrices with `CQ` entries, the model of the dense complex
`numpy` arrays of `selfenergy.py`. -/
abbrev Mat (a b : Nat) := Matrix (Fin a) (Fin b) CQ

instance (priority := 1500) instMatDecEq : DecidableEq (Mat a b) := fun M N =>
  decidable_of_iff (∀ i j, M i j = N i j)
    ⟨fun h => Matrix.ext h, fun h i j => by rw [h]⟩

instance (priority := 1500) instOptMatDecEq : DecidableEq (Option (Mat a b)) :=
  fun o p =>
  match o, p with
  | none, none => isTrue rfl
  | none, some _ => isFalse (by simp)
  | some _, none => isFalse (by simp)
  | some M, some N =>
    decidable_of_iff (M = N) ⟨fun h => by rw [h], fun h => by injection h⟩

/-- Modelled from the spec: the helper `dagger` of `ase.transport.tools`
(that module is not under `src/`); the spec defines it as the conjugate
transpose (`†`). -/
def dagger (M : Mat a b) : Mat b a :=
  Matrix.of fun i j => CQ.conj (M j i)

/-- Model of `numpy.linalg.solve(A, B)`: the solution `X` of `A·X = B`
when `A` is nonsingular (computed through the adjugate formula for the
inverse), and `none` when `A` is singular, where `numpy` raises
`LinAlgError`. -/
def solveOpt (A : Mat a a) (B : Mat a b) : Option (Mat a b) :=
  if A.det = 0 then none else some ((A.det)⁻¹ • (A.adjugate * B))

/-- The class constant `conv = 1e-8` of `LeadSelfEnergy`, the convergence
tolerance for the surface Green function. -/
def conv : ℚ := 1 / 10 ^ 8

/-- The loop test `delta ≤ conv` of `get_sgfinv`, where
`delta = npy.abs(v_01).max()`.  The maximum entrywise modulus is at most
`conv` iff every entry has squared modulus at most `conv²`; comparing
squared moduli avoids the (irrational) real square root. -/
def sgfConverged (M : Mat a b) : Prop :=
  ∀ i j, CQ.normSq (M i j) ≤ conv ^ 2

instance (M : Mat a b) : Decidable (sgfConverged M) :=
  inferInstanceAs (Decidable (∀ i j, CQ.normSq (M i j) ≤ conv ^ 2))

/-- The four working matrices `v_00, v_11, v_10, v_01` of the decimation
loop in `get_sgfinv`. -/
structure SgfState (a : Nat) where
  v00 : Mat a a
  v11 : Mat a a
  v10 : Mat a a
  v01 : Mat a a
  deriving DecidableEq

/-- Initialization of the decimation loop of `get_sgfinv`:
`v_00 = v_11 = z·s_ii† − h_ii†`, `v_10 = z·s_ij − h_ij`,
`v_01 = z·s_ij† − h_ij†` (`v_11` is a copy of `v_00`). -/
def sgfInit (z : CQ) (h_ii s_ii h_ij s_ij : Mat a a) : SgfState a :=
  { v00 := z • dagger s_ii - dagger h_ii
    v11 := z • dagger s_ii - dagger h_ii
    v10 := z • s_ij - h_ij
    v01 := z • dagger s_ij - dagger h_ij }

/-- One iteration of the decimation loop body of `get_sgfinv`:
`a = solve(v_11, v_01)`, `b = solve(v_11, v_10)`, then
`v_00 ← v_00 − v_01·b`, `v_11 ← v_11 − v_10·a − v_01·b`,
`v_01 ← −v_01·a`, `v_10 ← −v_10·b`, with every right-hand side read from
the pre-update state (matching the assignment order of the source).
`none` models a `LinAlgError` from a singular `v_11`. -/
def sgfStep (s : SgfState a) : Option (SgfState a) :=
  match solveOpt s.v11 s.v01, solveOpt s.v11 s.v10 with
  | some q, some b =>
    some { v00 := s.v00 - s.v01 * b
           v11 := s.v11 - s.v10 * q - s.v01 * b
           v01 := -(s.v01 * q)
           v10 := -(s.v10 * b) }
  | _, _ => none

/-- Outcome of the decimation loop: the returned `v_00`, a
linear-algebra error, or fuel exhaustion (the source loop is unbounded,
so a run that does not converge within the given fuel is cut off). -/
inductive SgfOut (a : Nat) where
  | ok (v00 : Mat a a)
  | fail
  | noFuel
  deriving DecidableEq

/-- The `while delta > conv` loop of `get_sgfinv`.  `delta` is
initialized to `conv + 1`, so the body always runs at least once; the
test is evaluated on the updated `v_01` after each iteration. -/
def sgfLoop : Nat → SgfState a → SgfOut a
  | 0, _ => .noFuel
  | fuel + 1, s =>
    match sgfStep s with
    | none => .fail
    | some t => if sgfConverged t.v01 then .ok t.v00 else sgfLoop fuel t

/-- `n` successive successful iterations of the decimation body. -/
def stepN : Nat → SgfState a → Option (SgfState a)
  | 0, s => some s
  | j + 1, s => (sgfStep s).bind (stepN j)

/-- The state of a `LeadSelfEnergy` instance: the six lead blocks from
construction, `eta`, the mutable `bias`, the cached `energy`
(`none` models the initial Python `None`), and the `sigma_mm` buffer. -/
structure LeadSelfEnergy (a b : Nat) where
  h_ii : Mat a a
  s_ii : Mat a a
  h_ij : Mat a a
  s_ij : Mat a a
  h_im : Mat a b
  s_im : Mat a b
  eta : CQ
  bias : CQ
  energy : Option CQ
  sigma_mm : Mat b b
  deriving DecidableEq

namespace LeadSelfEnergy

/-- `LeadSelfEnergy.__init__`: store the three `(H, S)` block pairs, set
`eta`, `bias = 0`, `energy = None`.  The `npy.empty` buffer `sigma_mm`
holds unspecified values until the first evaluation; it is modelled by
the zero matrix (no claim depends on the initial buffer content). -/
def init (hs_dii hs_dij : Mat a a × Mat a a) (hs_dim : Mat a b × Mat a b)
    (eta : CQ) : LeadSelfEnergy a b :=
  { h_ii := hs_dii.1, s_ii := hs_dii.2
    h_ij := hs_dij.1, s_ij := hs_dij.2
    h_im := hs_dim.1, s_im := hs_dim.2
    eta := eta, bias := 0, energy := none, sigma_mm := 0 }

/-- `LeadSelfEnergy.get_sgfinv(energy)`: run the decimation loop from the
initial state built with `z = energy − bias + eta·1j`. -/
def get_sgfinv (L : LeadSelfEnergy a b) (energy : CQ) (fuel : Nat) : SgfOut a :=
  sgfLoop fuel
    (sgfInit (energy - L.bias + L.eta * CQ.I) L.h_ii L.s_ii L.h_ij L.s_ij)

/-- `LeadSelfEnergy.__call__(energy)` (named `evaluate` by the spec).
On a cache miss the source first assigns `self.energy = energy`, then
computes `tau_im = z·s_im − h_im`, solves
`get_sgfinv(energy) · a_im = tau_im`, forms `tau_mi = z·s_im† − h_im†`
and overwrites `sigma_mm` with `tau_mi · a_im`.  A failure inside the
computation (singular solve, modelled `none`; or fuel exhaustion of the
unbounded source loop) leaves the already-performed assignment to
`energy` in place, exactly as a raised Python exception would.  The
returned pair is (result, post-call instance state). -/
def call (L : LeadSelfEnergy a b) (energy : CQ) (fuel : Nat) :
    Option (Mat b b) × LeadSelfEnergy a b :=
  if L.energy = some energy then
    (some L.sigma_mm, L)
  else
    let L1 := { L with energy := some energy }
    let z := energy - L.bias + L.eta * CQ.I
    let tau_im := z • L.s_im - L.h_im
    match L.get_sgfinv energy fuel with
    | .ok sgfinv =>
      match solveOpt sgfinv tau_im with
      | some a_im =>
        let tau_mi := z • dagger L.s_im - dagger L.h_im
        let sigma := tau_mi * a_im
        (some sigma, { L1 with sigma_mm := sigma })
      | none => (none, L1)
    | _ => (none, L1)

/-- `LeadSelfEnergy.set_bias(bias)`: mutate `bias` only. -/
def set_bias (L : LeadSelfEnergy a b) (bias : CQ) : LeadSelfEnergy a b :=
  { L with bias := bias }

/-- `LeadSelfEnergy.get_lambda(energy)`: `1j·(sigma_mm − sigma_mm†)` with
`sigma_mm` obtained from `__call__`; a failure there propagates. -/
def get_lambda (L : LeadSelfEnergy a b) (energy : CQ) (fuel : Nat) :
    Option (Mat b b) × LeadSelfEnergy a b :=
  match L.call energy fuel with
  | (some sigma, L') => (some (CQ.I • (sigma - dagger sigma)), L')
  | (none, L') => (none, L')

end LeadSelfEnergy

/-- A four-index interaction tensor `V_ijkl`. -/
def Tensor4 (N : Nat) := Fin N → Fin N → Fin N → Fin N → CQ

/-- A three-index reduced tensor (the optional `V_ikjk` argument). -/
def Tensor3 (N : Nat) := Fin N → Fin N → Fin N → CQ

/-- The density-matrix argument of the Hartree/Fock routines: the source
branches on `type(D) == list`, so the input is either a single matrix or
a two-element spin list. -/
inductive DensityInput (N : Nat) where
  | single (D : Mat N N)
  | pair (D0 D1 : Mat N N)

/-- The shared normalization at the top of `hartree`/`hartree_partial`:
a spin list is summed, a single matrix is doubled (`D = 2 * D`). -/
def normD : DensityInput N → Mat N N
  | .single D => (2 : CQ) • D
  | .pair D0 D1 => D0 + D1

/-- `hartree(D, V_ijkl)`: `V_H[i,j] = Σ_{k,l} V_ijkl[i,k,j,l]·D[k,l]`
(the `npy.dot` of the raveled slice `V_ijkl[i,:,j,:]` with `D.flat`),
after the spin normalization of `D`. -/
def hartree (D : DensityInput N) (V_ijkl : Tensor4 N) : Mat N N :=
  let Dm := normD D
  Matrix.of fun i j => ∑ k, ∑ l, V_ijkl i k j l * Dm k l

/-- `hartree_partial(D, V_ijij, V_ijji, V_iijj, V_iiij, V_ikjk=None)`:
the reduced-tensor Hartree assembly.  `V_iijj`/`V_iiij` given as `None`
are replaced by zero matrices.  Diagonal entries use
`Σ_k D[k,k]·V_ijij[i,k] + Σ_k D[i,k]·V_iiij[i,k] +
Σ_k D[k,i]·conj(V_iiij[i,k]) − 2·D[i,i]·V_iiij[i,i]` (or the `V_ikjk`
sum when that tensor is supplied); off-diagonal entries combine
`V_iijj`, `V_ijji`, `V_iiij` terms plus the optional `V_ikjk`
correction, exactly as in the source. -/
def hartree_partial (D : DensityInput N) (V_ijij V_ijji : Mat N N)
    (V_iijj V_iiij : Option (Mat N N)) (V_ikjk : Option (Tensor3 N)) :
    Mat N N :=
  let Dm := normD D
  let Wiijj := V_iijj.getD 0
  let Wiiij := V_iiij.getD 0
  Matrix.of fun i j =>
    if i = j then
      match V_ikjk with
      | some W => ∑ k, ∑ l, Dm k l * W k l i
      | none =>
        (∑ k, Dm k k * V_ijij i k) + (∑ k, Dm i k * Wiiij i k) +
          (∑ k, Dm k i * CQ.conj (Wiiij i k)) -
          2 * Dm i i * Wiiij i i
    else
      (Dm i j * Wiijj i j + Dm j i * V_ijji i j + Dm i i * Wiiij i j +
        Dm j j * CQ.conj (Wiiij j i)) +
      match V_ikjk with
      | some W =>
        (∑ k, Dm k k * W i j k) - Dm i i * Wiiij i j -
          Dm j j * CQ.conj (Wiiij j i)
      | none => 0

/-- The single-matrix branch of `fock(D, V_ijkl)`:
`V_F[i,j] = −Σ_{k,l} V_ijkl[i,k,l,j]·D[k,l]` (the negated `npy.dot` of
the raveled slice `V_ijkl[i,:,:,j]` with `D.flat`). -/
def fockSingle (D : Mat N N) (V_ijkl : Tensor4 N) : Mat N N :=
  Matrix.of fun i j => -(∑ k, ∑ l, V_ijkl i k l j * D k l)

/-- The result of `fock`: a single exchange matrix, or a two-element
list for spin-resolved input. -/
inductive FockResult (N : Nat) where
  | single (M : Mat N N)
  | pair (M0 M1 : Mat N N)

/-- `fock(D, V_ijkl)`: for a spin list the source recurses on each
component and returns the pair; otherwise the single-matrix contraction
applies. -/
def fock : DensityInput N → Tensor4 N → FockResult N
  | .single D, V => .single (fockSingle D V)
  | .pair D0 D1, V => .pair (fockSingle D0 V) (fockSingle D1 V)

/-- `fock_partial(D, V_ijij, V_ijji, V_iijj, V_iiij, V_ikjk=None)`: the
reduced-tensor exchange assembly.  The spin-list branch of the source is
`return [GetFockAll(D[0], V_ijkl), GetFockAll(D[1], V_ijkl)]`, and
neither `GetFockAll` nor `V_ijkl` is a name in scope there, so executing
that branch raises a Python `NameError`; it is modelled by the
corresponding error value.  The single-matrix branch mirrors
`hartree_partial` with the exchange index pattern and sign. -/
def fock_partial (D : DensityInput N) (V_ijij V_ijji : Mat N N)
    (V_iijj V_iiij : Option (Mat N N)) (V_ikjk : Option (Tensor3 N)) :
    Except String (Mat N N) :=
  match D with
  | .pair _ _ => .error "NameError: name GetFockAll is not defined"
  | .single Dm =>
    let Wiijj := V_iijj.getD 0
    let Wiiij := V_iiij.getD 0
    .ok <| Matrix.of fun i j =>
      if i = j then
        -((∑ k, Dm k k * V_ijji i k) + (∑ k, Dm i k * Wiiij i k) +
            (∑ k, Dm k i * CQ.conj (Wiiij i k)) -
            2 * Dm i i * Wiiij i i +
            Dm i i * V_ijij i i - Dm i i * V_ijji i i)
      else
        -(Dm j i * V_ijij i j + Dm i j * Wiijj i j + Dm i i * Wiiij i j +
            Dm j j * CQ.conj (Wiiij j i)) -
        match V_ikjk with
        | some W =>
          (∑ k, Dm k i * W k j i) - Dm i i * W i j i - Dm j i * W j j i +
            (∑ k, Dm j k * W i k j) - Dm j j * W i j j - Dm j i * W i i j
        | none => 0

/-- `V_ijij` derived consistently from a full tensor:
`V_ijij[i,j] = V_ijkl[i,j,i,j]`. -/
def vijijOf (V : Tensor4 N) : Mat N N := Matrix.of fun i j => V i j i j

/-- `V_ijji` derived consistently: `V_ijji[i,j] = V_ijkl[i,j,j,i]`. -/
def vijjiOf (V : Tensor4 N) : Mat N N := Matrix.of fun i j => V i j j i

/-- `V_iijj` derived consistently: `V_iijj[i,j] = V_ijkl[i,i,j,j]`. -/
def viijjOf (V : Tensor4 N) : Mat N N := Matrix.of fun i j => V i i j j

/-- `V_iiij` derived consistently: `V_iiij[i,j] = V_ijkl[i,i,i,j]`. -/
def viiijOf (V : Tensor4 N) : Mat N N := Matrix.of fun i j => V i i i j

/-- A concrete well-posed 1×1 lead: `h_ii = 0`, `s_ii = 1`,
`h_ij = s_ij = 0` (decoupled principal layers), `h_im = 1`, `s_im = 0`,
`eta = 1`, used to exercise successful evaluations. -/
def Lgood : LeadSelfEnergy 1 1 :=
  LeadSelfEnergy.init (!![0], !![1]) (!![0], !![0]) (!![1], !![0]) 1

/-- A concrete degenerate 1×1 lead with every block zero: the first
decimation step must solve against `v_11 = 0`, a singular matrix, so an
evaluation fails (`numpy` raises `LinAlgError`). -/
def Lbad : LeadSelfEnergy 1 1 :=
  LeadSelfEnergy.init (!![0], !![0]) (!![0], !![0]) (!![0], !![0]) 1

/-- Number of occurrences of `x` among four indices. -/
def cnt (x a b c d : Fin 3) : Nat :=
  (if a = x then 1 else 0) + (if b = x then 1 else 0) +
    (if c = x then 1 else 0) + (if d = x then 1 else 0)

/-- A real four-index tensor on three orbitals, invariant under every
permutation of its four indices (hence symmetric in any sense): entry 1
exactly when the index multiset is `{0, 0, 1, 2}`, else 0.  All its
nonzero entries involve three distinct orbital indices. -/
def Vcex : Tensor4 3 := fun a b c d =>
  if cnt 0 a b c d = 2 ∧ cnt 1 a b c d = 1 ∧ cnt 2 a b c d = 1 then 1 else 0

/-- A Hermitian density matrix whose only nonzero entries are
`D[1,2] = D[2,1] = 1`. -/
def Dcex : Mat 3 3 :=
  Matrix.of fun k l => if (k = 1 ∧ l = 2) ∨ (k = 2 ∧ l = 1) then 1 else 0

/-- The constant-one tensor on a single orbital, which satisfies the
two-electron symmetry and sparsity hypotheses trivially. -/
def Vone : Tensor4 1 := fun _ _ _ _ => 1

/-- A one-orbital density matrix. -/
def Done : Mat 1 1 := !![⟨1, 1⟩]

theorem dagger_apply (M : Mat a b) (i : Fin b) (j : Fin a) :
    dagger M i j = CQ.conj (M j i) := rfl

theorem dagger_zero : dagger (0 : Mat a b) = 0 := by
  refine Matrix.ext fun i j => ?_
  simp [dagger_apply, CQ.conj_zero]

theorem dagger_dagger (M : Mat a b) : dagger (dagger M) = M := by
  refine Matrix.ext fun i j => ?_
  simp [dagger_apply, CQ.conj_conj]

theorem dagger_sub (M N : Mat a b) : dagger (M - N) = dagger M - dagger N := by
  refine Matrix.ext fun i j => ?_
  simp [dagger_apply, CQ.conj_sub]

theorem dagger_smul (c : CQ) (M : Mat a b) :
    dagger (c • M) = CQ.conj c • dagger M := by
  refine Matrix.ext fun i j => ?_
  simp [dagger_apply, CQ.conj_mul]

theorem solveOpt_zero (A : Mat a a) (h : A.det ≠ 0) :
    solveOpt A (0 : Mat a b) = some 0 := by
  simp [solveOpt, h]

theorem solveOpt_sound (A : Mat a a) (B : Mat a b) (X : Mat a b)
    (h : solveOpt A B = some X) : A * X = B := by
  unfold solveOpt at h
  by_cases hd : A.det = 0
  · simp [hd] at h
  · simp only [if_neg hd, Option.some.injEq] at h
    rw [← h, Matrix.mul_smul, ← Matrix.mul_assoc, Matrix.mul_adjugate,
      Matrix.smul_mul, Matrix.one_mul, smul_smul, inv_mul_cancel₀ hd,
      one_smul]

theorem sgfConverged_zero : sgfConverged (0 : Mat a b) := by
  intro i j
  simp only [Matrix.zero_apply, CQ.normSq_zero]
  norm_num [conv]

theorem stepN_succ_of_step {s t : SgfState a} (h : sgfStep s = some t)
    (n : Nat) : stepN (n + 1) s = stepN n t := by
  simp [stepN, h]

theorem sgfLoop_ok_iff (fuel : Nat) (s : SgfState a) (r : Mat a a) :
    sgfLoop fuel s = .ok r ↔
      ∃ j, j < fuel ∧ ∃ t, stepN (j + 1) s = some t ∧ sgfConverged t.v01 ∧
        r = t.v00 ∧
        ∀ i, i < j → ∀ u, stepN (i + 1) s = some u → ¬ sgfConverged u.v01 := by
  induction fuel generalizing s with
  | zero => simp [sgfLoop]
  | succ fuel ih =>
    cases hstep : sgfStep s with
    | none =>
      simp only [sgfLoop, hstep]
      constructor
      · intro h
        exact absurd h (by simp)
      · rintro ⟨j, -, t, h1, -⟩
        rw [stepN, hstep] at h1
        exact absurd h1 (by simp)
    | some t =>
      have hsN : ∀ n, stepN (n + 1) s = stepN n t := stepN_succ_of_step hstep
      simp only [sgfLoop, hstep]
      by_cases hc : sgfConverged t.v01
      · simp only [if_pos hc]
        constructor
        · intro h
          have hr : r = t.v00 := by
            cases h
            rfl
          exact ⟨0, Nat.succ_pos _, t, by rw [hsN 0]; rfl, hc, hr,
            fun i hi => absurd hi (Nat.not_lt_zero i)⟩
        · rintro ⟨j, hj, t', h1, h2, h3, h4⟩
          cases j with
          | zero =>
            rw [hsN 0] at h1
            simp only [stepN, Option.some.injEq] at h1
            rw [h3, ← h1]
          | succ j' =>
            have := h4 0 (Nat.succ_pos _) t (by rw [hsN 0]; rfl)
            exact absurd hc this
      · simp only [if_neg hc]
        rw [ih t]
        constructor
        · rintro ⟨j, hj, t', h1, h2, h3, h4⟩
          refine ⟨j + 1, Nat.succ_lt_succ hj, t', by rw [hsN (j + 1)]; exact h1,
            h2, h3, ?_⟩
          intro i hi u hu
          cases i with
          | zero =>
            rw [hsN 0] at hu
            simp only [stepN, Option.some.injEq] at hu
            rw [← hu]
            exact hc
          | succ i' =>
            rw [hsN (i' + 1)] at hu
            exact h4 i' (Nat.lt_of_succ_lt_succ hi) u hu
        · rintro ⟨j, hj, t', h1, h2, h3, h4⟩
          cases j with
          | zero =>
            rw [hsN 0] at h1
            simp only [stepN, Option.some.injEq] at h1
            rw [← h1] at h2
            exact absurd h2 hc
          | succ j' =>
            refine ⟨j', Nat.lt_of_succ_lt_succ hj, t', by rw [← hsN (j' + 1)]; exact h1,
              h2, h3, ?_⟩
            intro i hi u hu
            exact h4 (i + 1) (Nat.succ_lt_succ hi) u (by rw [hsN (i + 1)]; exact hu)

/-- C1.  `get_sgfinv` runs the decimation recursion from the initial
state `v_00 = v_11 = z·s_ii† − h_ii†`, `v_10 = z·s_ij − h_ij`,
`v_01 = z·s_ij† − h_ij†` with `z = energy − bias + eta·1j`: it returns a
matrix `r` exactly when some number `j + 1 ≤ fuel` of iterations of the
loop body (each solving `v_11·a = v_01` and `v_11·b = v_10` and applying
the four updates) first reaches a state whose updated `v_01` passes the
`delta ≤ 1e-8` test (every entry of modulus at most `1e-8`), no earlier
iterate passing it, and `r` is that state's `v_00`. -/
theorem get_sgfinv_decimation (L : LeadSelfEnergy a b) (E : CQ) (fuel : Nat)
    (r : Mat a a) :
    L.get_sgfinv E fuel = .ok r ↔
      ∃ j, j < fuel ∧ ∃ t,
        stepN (j + 1)
          (sgfInit (E - L.bias + L.eta * CQ.I) L.h_ii L.s_ii L.h_ij L.s_ij) =
          some t ∧
        sgfConverged t.v01 ∧ r = t.v00 ∧
        ∀ i, i < j → ∀ u,
          stepN (i + 1)
            (sgfInit (E - L.bias + L.eta * CQ.I) L.h_ii L.s_ii L.h_ij L.s_ij) =
            some u →
          ¬ sgfConverged u.v01 :=
  sgfLoop_ok_iff fuel _ r

theorem call_hit {L : LeadSelfEnergy a b} {E : CQ} (h : L.energy = some E)
    (fuel : Nat) : L.call E fuel = (some L.sigma_mm, L) := by
  simp [LeadSelfEnergy.call, h]

theorem call_cases (L : LeadSelfEnergy a b) (E : CQ) (fuel : Nat) :
    (L.energy = some E ∧ L.call E fuel = (some L.sigma_mm, L)) ∨
      (L.energy ≠ some E ∧
        ((∃ σ, L.call E fuel =
            (some σ, { L with energy := some E, sigma_mm := σ })) ∨
          L.call E fuel = (none, { L with energy := some E }))) := by
  by_cases hc : L.energy = some E
  · exact Or.inl ⟨hc, call_hit hc fuel⟩
  · refine Or.inr ⟨hc, ?_⟩
    unfold LeadSelfEnergy.call
    rw [if_neg hc]
    cases hG : L.get_sgfinv E fuel with
    | ok v =>
      cases hS : solveOpt v
          ((E - L.bias + L.eta * CQ.I) • L.s_im - L.h_im) with
      | some a_im =>
        left
        exact ⟨((E - L.bias + L.eta * CQ.I) • dagger L.s_im -
          dagger L.h_im) * a_im, by simp only [hS]⟩
      | none =>
        right
        simp only [hS]
    | fail => right; rfl
    | noFuel => right; rfl

/-- C2.  For a fixed bias, a successful `__call__` at energy `E` caches
its result: calling again with the same `E` returns the very value the
first call returned and leaves the instance state unchanged, and it does
so for every fuel bound — in particular with fuel 0, so no iteration of
the surface-Green-function solver and no linear solve is performed on
the second call. -/
theorem call_cached (L : LeadSelfEnergy a b) (E : CQ) (fuel fuel' : Nat)
    (h : ((L.call E fuel).1).isSome = true) :
    (L.call E fuel).2.call E fuel' = ((L.call E fuel).1, (L.call E fuel).2) := by
  rcases call_cases L E fuel with ⟨hc, heq⟩ | ⟨-, ⟨σ, heq⟩ | heq⟩
  · rw [heq]
    exact call_hit hc fuel'
  · rw [heq]
    exact call_hit rfl fuel'
  · rw [heq] at h
    simp at h

/-- Witness for C2 at the concrete lead `Lgood`, energy 1, fuel 1. -/
theorem call_cached_witness :
    (Lgood.call 1 1).2.call 1 0 = ((Lgood.call 1 1).1, (Lgood.call 1 1).2) :=
  call_cached Lgood 1 1 0 (by decide!)

/-- C3.  After a successful `__call__` at energy `E` under one bias,
`set_bias b'` with a different bias followed by `__call__` at the same
`E` hits the energy-only cache test: it returns the stale `sigma_mm`
computed under the old bias and changes nothing, for every fuel bound of
the second call (no recomputation with the new bias happens). -/
theorem call_stale_after_set_bias (L : LeadSelfEnergy a b) (E : CQ)
    (fuel fuel' : Nat) (b' : CQ) (hb : b' ≠ L.bias)
    (h : ((L.call E fuel).1).isSome = true) :
    ((L.call E fuel).2.set_bias b').call E fuel' =
      ((L.call E fuel).1, (L.call E fuel).2.set_bias b') := by
  rcases call_cases L E fuel with ⟨hc, heq⟩ | ⟨-, ⟨σ, heq⟩ | heq⟩
  · rw [heq]
    exact call_hit (show (L.set_bias b').energy = some E from hc) fuel'
  · rw [heq]
    exact call_hit rfl fuel'
  · rw [heq] at h
    simp at h

/-- Witness for C3 at the concrete lead `Lgood` (bias 0), new bias 5. -/
theorem call_stale_after_set_bias_witness :
    ((Lgood.call 1 1).2.set_bias 5).call 1 1 =
      ((Lgood.call 1 1).1, (Lgood.call 1 1).2.set_bias 5) :=
  call_stale_after_set_bias Lgood 1 1 1 5 (by decide!) (by decide!)

/-- C4, counterexample.  On the degenerate lead `Lbad` the first
decimation solve hits a singular `v_11`, so `__call__` fails (returns no
matrix) — yet the stored `energy` field differs from its value before
the call, because the source assigns `self.energy = energy` before
computing.  The claim that a failing call leaves the cached state
exactly as it was is therefore false. -/
theorem call_fail_cex :
    (Lbad.call 1 1).1 = none ∧ (Lbad.call 1 1).2.energy ≠ Lbad.energy := by
  constructor
  · decide!
  · decide!

/-- C4, amended.  On a failing `__call__` the `sigma_mm` buffer and all
constructed fields are left unchanged, but the stored `energy` has
already been overwritten with the new energy: the post-call state is
exactly the prior state with `energy` replaced by `some E`. -/
theorem call_fail_state (L : LeadSelfEnergy a b) (E : CQ) (fuel : Nat)
    (h : (L.call E fuel).1 = none) :
    (L.call E fuel).2 = { L with energy := some E } := by
  rcases call_cases L E fuel with ⟨-, heq⟩ | ⟨-, ⟨σ, heq⟩ | heq⟩
  · rw [heq] at h
    simp at h
  · rw [heq] at h
    simp at h
  · rw [heq]

/-- Witness for C4's amended theorem at the failing lead `Lbad`. -/
theorem call_fail_state_witness :
    (Lbad.call 1 1).2 = { Lbad with energy := some 1 } :=
  call_fail_state Lbad 1 1 (by decide!)

/-- C5.  Whenever `get_lambda` produces a matrix
`G = 1j·(sigma_mm − sigma_mm†)`, that matrix is exactly Hermitian:
`G† = G` (exact over exact complex arithmetic; a floating-point run
matches to rounding). -/
theorem get_lambda_hermitian (L : LeadSelfEnergy a b) (E : CQ) (fuel : Nat)
    (G : Mat b b) (h : (L.get_lambda E fuel).1 = some G) :
    dagger G = G := by
  unfold LeadSelfEnergy.get_lambda at h
  cases hc : L.call E fuel with
  | mk o L' =>
    rw [hc] at h
    cases o with
    | none => simp at h
    | some σ =>
      simp only [Option.some.injEq] at h
      rw [← h, dagger_smul, dagger_sub, dagger_dagger, CQ.conj_I, neg_smul,
        ← smul_neg, neg_sub]

/-- Witness for C5 at the concrete lead `Lgood`. -/
theorem get_lambda_hermitian_witness :
    dagger (!![(⟨1, 0⟩ : CQ)]) = !![(⟨1, 0⟩ : CQ)] :=
  get_lambda_hermitian Lgood 1 1 !![(⟨1, 0⟩ : CQ)] (by decide!)

/-- C6.  Two instances over the same blocks and `eta`, one with bias `b`
queried at energy `E`, the other with bias 0 queried at `E − b`, return
the same result from `__call__`: the computation depends on bias and
energy only through `z = energy − bias + eta·1j`. -/
theorem call_bias_shift (hs_dii hs_dij : Mat a a × Mat a a)
    (hs_dim : Mat a b × Mat a b) (eta b E : CQ) (fuel : Nat) :
    (((LeadSelfEnergy.init hs_dii hs_dij hs_dim eta).set_bias b).call E fuel).1 =
      ((LeadSelfEnergy.init hs_dii hs_dij hs_dim eta).call (E - b) fuel).1 := by
  simp only [LeadSelfEnergy.call, LeadSelfEnergy.init, LeadSelfEnergy.set_bias,
    LeadSelfEnergy.get_sgfinv, sub_zero, reduceCtorEq, if_neg,
    Option.some.injEq, ite_false]
  cases hG : sgfLoop fuel
      (sgfInit (E - b + eta * CQ.I) hs_dii.1 hs_dii.2 hs_dij.1 hs_dij.2) with
  | ok v =>
    dsimp only
    cases hS : solveOpt v ((E - b + eta * CQ.I) • hs_dim.2 - hs_dim.1) with
    | some a_im => rfl
    | none => rfl
  | fail => rfl
  | noFuel => rfl

/-- C7.  For a decoupled lead (`h_ij = s_ij = 0`) whose initial
`v_11 = z·s_ii† − h_ii†` is nonsingular, the decimation loop converges
after the single mandatory iteration (any fuel bound of at least one
suffices) and `get_sgfinv` returns the unchanged onsite block
`v_00 = z·s_ii† − h_ii†` exactly. -/
theorem get_sgfinv_decoupled (L : LeadSelfEnergy a b) (E : CQ) (fuel : Nat)
    (hij : L.h_ij = 0) (sij : L.s_ij = 0)
    (hdet : ((E - L.bias + L.eta * CQ.I) • dagger L.s_ii - dagger L.h_ii).det ≠ 0)
    (hf : 1 ≤ fuel) :
    L.get_sgfinv E fuel =
      .ok ((E - L.bias + L.eta * CQ.I) • dagger L.s_ii - dagger L.h_ii) := by
  obtain ⟨f, rfl⟩ : ∃ f, fuel = f + 1 :=
    ⟨fuel - 1, (Nat.succ_pred_eq_of_pos hf).symm⟩
  unfold LeadSelfEnergy.get_sgfinv sgfInit
  rw [hij, sij, dagger_zero]
  have h0 : (E - L.bias + L.eta * CQ.I) • (0 : Mat a a) - 0 = 0 := by simp
  rw [h0]
  simp only [sgfLoop, sgfStep, solveOpt_zero _ hdet, Matrix.zero_mul,
    Matrix.mul_zero, sub_zero, neg_zero, if_pos sgfConverged_zero]

/-- Witness for C7 at the decoupled concrete lead `Lgood`. -/
theorem get_sgfinv_decoupled_witness :
    Lgood.get_sgfinv 1 1 =
      .ok ((1 - Lgood.bias + Lgood.eta * CQ.I) • dagger Lgood.s_ii -
        dagger Lgood.h_ii) :=
  get_sgfinv_decoupled Lgood 1 1 (by decide!) (by decide!) (by decide!)
    (by decide)

/-- C9.  For every spin-list input the spin branch of `fock_partial`
references the undefined names `GetFockAll` and `V_ijkl`, so the call
raises a `NameError` instead of producing a per-spin pair: the modelled
function returns that error for every pair input and every combination
of reduced tensors. -/
theorem fock_partial_pair_error (D0 D1 : Mat N N) (V_ijij V_ijji : Mat N N)
    (V_iijj V_iiij : Option (Mat N N)) (V_ikjk : Option (Tensor3 N)) :
    fock_partial (.pair D0 D1) V_ijij V_ijji V_iijj V_iiij V_ikjk =
      .error "NameError: name GetFockAll is not defined" := rfl

theorem card_three_lt {N : Nat} {x y z : Fin N} (s : Finset (Fin N))
    (hx : x ∈ s) (hy : y ∈ s) (hz : z ∈ s)
    (hxy : x ≠ y) (hxz : x ≠ z) (hyz : y ≠ z) : 2 < s.card := by
  have hsub : ({x, y, z} : Finset (Fin N)) ⊆ s := by
    intro t ht
    simp only [Finset.mem_insert, Finset.mem_singleton] at ht
    rcases ht with rfl | rfl | rfl <;> assumption
  have hcard : ({x, y, z} : Finset (Fin N)).card = 3 := by
    rw [Finset.card_insert_of_not_mem (by simp [hxy, hxz]),
      Finset.card_insert_of_not_mem (by simp [hyz]),
      Finset.card_singleton]
  calc 2 < 3 := by norm_num
    _ = ({x, y, z} : Finset (Fin N)).card := hcard.symm
    _ ≤ s.card := Finset.card_le_card hsub

theorem sum_if_pair (c : CQ) {N : Nat} (i j : Fin N) :
    (∑ k : Fin N, ∑ l : Fin N, if k = i ∧ l = j then c else 0) = c := by
  have h1 : ∀ k : Fin N,
      (∑ l : Fin N, if k = i ∧ l = j then c else 0) =
        if k = i then c else 0 := by
    intro k
    by_cases hk : k = i
    · simp only [hk, true_and]
      rw [Finset.sum_ite_eq' Finset.univ j fun _ => c]
      simp
    · simp [hk]
  rw [Finset.sum_congr rfl fun k _ => h1 k,
    Finset.sum_ite_eq' Finset.univ i fun _ => c]
  simp

theorem hartree_off {N : Nat} {V : Tensor4 N}
    (hex : ∀ a b c d, V a b c d = V b a d c)
    (hherm : ∀ a b c d, V a b c d = CQ.conj (V c d a b))
    (hsp : ∀ a b c d : Fin N,
      2 < ({a, b, c, d} : Finset (Fin N)).card → V a b c d = 0)
    (Dm : Mat N N) {i j : Fin N} (hij : i ≠ j) :
    (∑ k, ∑ l, V i k j l * Dm k l) =
      Dm i j * V i i j j + Dm j i * V i j j i + Dm i i * V i i i j +
        Dm j j * CQ.conj (V j j j i) := by
  have hji : j ≠ i := Ne.symm hij
  have key : ∀ k l, V i k j l * Dm k l =
      (if k = i ∧ l = j then Dm i j * V i i j j else 0) +
      ((if k = j ∧ l = i then Dm j i * V i j j i else 0) +
       ((if k = i ∧ l = i then Dm i i * V i i i j else 0) +
        (if k = j ∧ l = j then Dm j j * CQ.conj (V j j j i) else 0))) := by
    intro k l
    by_cases hk : k = i
    · by_cases hl : l = j
      · simp only [hk, hl]
        simp [hij, hji]
        ring
      · by_cases hli : l = i
        · simp only [hk, hli]
          rw [hex i i j i]
          simp [hij, hji]
          ring
        · have hV : V i i j l = 0 :=
            hsp i i j l (card_three_lt _ (by simp) (by simp) (by simp) hij
              (Ne.symm hli) (Ne.symm hl))
          simp only [hk]
          simp [hV, hl, hli, hij, hji]
    · by_cases hkj : k = j
      · by_cases hl : l = i
        · simp only [hkj, hl]
          simp [hij, hji]
          ring
        · by_cases hlj : l = j
          · have hVj : V i j j j = CQ.conj (V j j j i) := by
              rw [hherm i j j j, hex j j i j]
            simp only [hkj, hlj]
            rw [hVj]
            simp [hij, hji]
            ring
          · have hV : V i j j l = 0 :=
              hsp i j j l (card_three_lt _ (by simp) (by simp) (by simp) hij
                (Ne.symm hl) (Ne.symm hlj))
            simp only [hkj]
            simp [hV, hl, hlj, hij, hji]
      · have hV : V i k j l = 0 :=
          hsp i k j l (card_three_lt ({i, k, j, l} : Finset (Fin N))
            (by simp) (by simp) (by simp) (Ne.symm hk) hij hkj)
        simp [hV, hk, hkj]
  calc (∑ k, ∑ l, V i k j l * Dm k l)
      = ∑ k : Fin N, ∑ l : Fin N,
          ((if k = i ∧ l = j then Dm i j * V i i j j else 0) +
          ((if k = j ∧ l = i then Dm j i * V i j j i else 0) +
           ((if k = i ∧ l = i then Dm i i * V i i i j else 0) +
            (if k = j ∧ l = j then Dm j j * CQ.conj (V j j j i) else 0)))) :=
        Finset.sum_congr rfl fun k _ => Finset.sum_congr rfl fun l _ => key k l
    _ = Dm i j * V i i j j + Dm j i * V i j j i + Dm i i * V i i i j +
        Dm j j * CQ.conj (V j j j i) := by
        simp only [Finset.sum_add_distrib, sum_if_pair]
        ring

theorem sum_diag_if {N : Nat} (c : Fin N → CQ) :
    (∑ k : Fin N, ∑ l : Fin N, if l = k then c k else 0) = ∑ k, c k := by
  refine Finset.sum_congr rfl fun k _ => ?_
  rw [Finset.sum_ite_eq' Finset.univ k fun _ => c k]
  simp

theorem sum_if_ne {N : Nat} (f : Fin N → CQ) (i : Fin N) :
    (∑ l, if l = i then 0 else f l) = (∑ l, f l) - f i := by
  have h : ∀ l : Fin N,
      (if l = i then 0 else f l) = f l - (if l = i then f l else 0) := by
    intro l
    by_cases hl : l = i <;> simp [hl]
  rw [Finset.sum_congr rfl fun l _ => h l, Finset.sum_sub_distrib,
    Finset.sum_ite_eq' Finset.univ i f]
  simp

theorem sum_push_if {N : Nat} (p : Prop) [Decidable p] (f : Fin N → CQ) :
    (∑ l : Fin N, if p then f l else 0) = if p then ∑ l, f l else 0 := by
  by_cases hp : p <;> simp [hp]

theorem sum_if_outer {N : Nat} (i : Fin N) (g : Fin N → CQ) :
    (∑ k : Fin N, if k = i then g k else 0) = g i := by
  rw [Finset.sum_ite_eq' Finset.univ i g]
  simp

theorem sum_if_const {N : Nat} (i : Fin N) (c : Fin N → CQ) :
    (∑ l : Fin N, if l = i then c l else 0) = c i := by
  rw [Finset.sum_ite_eq' Finset.univ i c]
  simp

theorem hartree_diag {N : Nat} {V : Tensor4 N}
    (hherm : ∀ a b c d, V a b c d = CQ.conj (V c d a b))
    (hsp : ∀ a b c d : Fin N,
      2 < ({a, b, c, d} : Finset (Fin N)).card → V a b c d = 0)
    (Dm : Mat N N) (i : Fin N) :
    (∑ k, ∑ l, V i k i l * Dm k l) =
      (∑ k, Dm k k * V i k i k) + (∑ k, Dm i k * V i i i k) +
        (∑ k, Dm k i * CQ.conj (V i i i k)) - 2 * Dm i i * V i i i i := by
  have hreal : CQ.conj (V i i i i) = V i i i i := (hherm i i i i).symm
  have key : ∀ k l, V i k i l * Dm k l =
      (if l = k then Dm k k * V i k i k else 0) +
      ((if k = i then (if l = i then 0 else Dm i l * V i i i l) else 0) +
       (if l = i then (if k = i then 0 else Dm k i * CQ.conj (V i i i k))
        else 0)) := by
    intro k l
    by_cases hlk : l = k
    · simp only [hlk]
      by_cases hk : k = i
      · simp only [hk]
        simp
        ring
      · simp [hk]
        ring
    · by_cases hk : k = i
      · by_cases hl : l = i
        · exact absurd (hl.trans hk.symm) hlk
        · simp only [hk] at hlk ⊢
          simp [hlk, hl]
          ring
      · by_cases hl : l = i
        · simp only [hl] at hlk ⊢
          rw [hherm i k i i]
          simp [hk, hlk]
          ring
        · have hV : V i k i l = 0 :=
            hsp i k i l (card_three_lt _ (by simp) (by simp) (by simp)
              (Ne.symm hk) (Ne.symm hl) (fun h => hlk h.symm))
          simp [hV, hlk, hk, hl]
  rw [Finset.sum_congr rfl fun k _ => Finset.sum_congr rfl fun l _ => key k l]
  simp only [Finset.sum_add_distrib]
  rw [sum_diag_if]
  rw [Finset.sum_congr rfl fun k _ =>
    sum_push_if (k = i) fun l => if l = i then 0 else Dm i l * V i i i l]
  rw [sum_if_outer i fun _ =>
    ∑ l, if l = i then 0 else Dm i l * V i i i l]
  rw [sum_if_ne (fun l => Dm i l * V i i i l) i]
  rw [Finset.sum_congr rfl fun k _ =>
    sum_if_const i fun _ =>
      if k = i then 0 else Dm k i * CQ.conj (V i i i k)]
  rw [sum_if_ne (fun k => Dm k i * CQ.conj (V i i i k)) i]
  rw [hreal]
  ring

theorem fock_diag {N : Nat} {V : Tensor4 N}
    (hex : ∀ a b c d, V a b c d = V b a d c)
    (hherm : ∀ a b c d, V a b c d = CQ.conj (V c d a b))
    (hsp : ∀ a b c d : Fin N,
      2 < ({a, b, c, d} : Finset (Fin N)).card → V a b c d = 0)
    (Dm : Mat N N) (i : Fin N) :
    (∑ k, ∑ l, V i k l i * Dm k l) =
      (∑ k, Dm k k * V i k k i) + (∑ k, Dm i k * V i i i k) +
        (∑ k, Dm k i * CQ.conj (V i i i k)) - 2 * Dm i i * V i i i i := by
  have hreal : CQ.conj (V i i i i) = V i i i i := (hherm i i i i).symm
  have key : ∀ k l, V i k l i * Dm k l =
      (if l = k then Dm k k * V i k k i else 0) +
      ((if k = i then (if l = i then 0 else Dm i l * V i i i l) else 0) +
       (if l = i then (if k = i then 0 else Dm k i * CQ.conj (V i i i k))
        else 0)) := by
    intro k l
    by_cases hlk : l = k
    · simp only [hlk]
      by_cases hk : k = i
      · simp only [hk]
        simp
        ring
      · simp [hk]
        ring
    · by_cases hk : k = i
      · by_cases hl : l = i
        · exact absurd (hl.trans hk.symm) hlk
        · simp only [hk] at hlk ⊢
          rw [hex i i l i]
          simp [hlk, hl]
          ring
      · by_cases hl : l = i
        · simp only [hl] at hlk ⊢
          rw [hherm i k i i]
          simp [hk, hlk]
          ring
        · have hV : V i k l i = 0 :=
            hsp i k l i (card_three_lt _ (by simp) (by simp) (by simp)
              (Ne.symm hk) (Ne.symm hl) (fun h => hlk h.symm))
          simp [hV, hlk, hk, hl]
  rw [Finset.sum_congr rfl fun k _ => Finset.sum_congr rfl fun l _ => key k l]
  simp only [Finset.sum_add_distrib]
  rw [sum_diag_if]
  rw [Finset.sum_congr rfl fun k _ =>
    sum_push_if (k = i) fun l => if l = i then 0 else Dm i l * V i i i l]
  rw [sum_if_outer i fun _ =>
    ∑ l, if l = i then 0 else Dm i l * V i i i l]
  rw [sum_if_ne (fun l => Dm i l * V i i i l) i]
  rw [Finset.sum_congr rfl fun k _ =>
    sum_if_const i fun _ =>
      if k = i then 0 else Dm k i * CQ.conj (V i i i k)]
  rw [sum_if_ne (fun k => Dm k i * CQ.conj (V i i i k)) i]
  rw [hreal]
  ring

theorem fock_off {N : Nat} {V : Tensor4 N}
    (hex : ∀ a b c d, V a b c d = V b a d c)
    (hherm : ∀ a b c d, V a b c d = CQ.conj (V c d a b))
    (hsp : ∀ a b c d : Fin N,
      2 < ({a, b, c, d} : Finset (Fin N)).card → V a b c d = 0)
    (Dm : Mat N N) {i j : Fin N} (hij : i ≠ j) :
    (∑ k, ∑ l, V i k l j * Dm k l) =
      Dm j i * V i j i j + Dm i j * V i i j j + Dm i i * V i i i j +
        Dm j j * CQ.conj (V j j j i) := by
  have hji : j ≠ i := Ne.symm hij
  have key : ∀ k l, V i k l j * Dm k l =
      (if k = j ∧ l = i then Dm j i * V i j i j else 0) +
      ((if k = i ∧ l = j then Dm i j * V i i j j else 0) +
       ((if k = i ∧ l = i then Dm i i * V i i i j else 0) +
        (if k = j ∧ l = j then Dm j j * CQ.conj (V j j j i) else 0))) := by
    intro k l
    by_cases hk : k = i
    · by_cases hl : l = j
      · simp only [hk, hl]
        simp [hij, hji]
        ring
      · by_cases hli : l = i
        · simp only [hk, hli]
          simp [hij, hji]
          ring
        · have hV : V i i l j = 0 :=
            hsp i i l j (card_three_lt _ (by simp) (by simp) (by simp)
              (Ne.symm hli) hij (fun h => hl h))
          simp only [hk]
          simp [hV, hl, hli, hij, hji]
    · by_cases hkj : k = j
      · by_cases hl : l = i
        · simp only [hkj, hl]
          simp [hij, hji]
          ring
        · by_cases hlj : l = j
          · have hVj : V i j j j = CQ.conj (V j j j i) := by
              rw [hherm i j j j, hex j j i j]
            simp only [hkj, hlj]
            rw [hVj]
            simp [hij, hji]
            ring
          · have hV : V i j l j = 0 :=
              hsp i j l j (card_three_lt _ (by simp) (by simp) (by simp) hij
                (Ne.symm hl) (fun h => hlj h.symm))
            simp only [hkj]
            simp [hV, hl, hlj, hij, hji]
      · have hV : V i k l j = 0 :=
          hsp i k l j (card_three_lt ({i, k, l, j} : Finset (Fin N))
            (by simp) (by simp) (by simp) (Ne.symm hk) hij hkj)
        simp [hV, hk, hkj]
  calc (∑ k, ∑ l, V i k l j * Dm k l)
      = ∑ k : Fin N, ∑ l : Fin N,
          ((if k = j ∧ l = i then Dm j i * V i j i j else 0) +
          ((if k = i ∧ l = j then Dm i j * V i i j j else 0) +
           ((if k = i ∧ l = i then Dm i i * V i i i j else 0) +
            (if k = j ∧ l = j then Dm j j * CQ.conj (V j j j i) else 0)))) :=
        Finset.sum_congr rfl fun k _ => Finset.sum_congr rfl fun l _ => key k l
    _ = Dm j i * V i j i j + Dm i j * V i i j j + Dm i i * V i i i j +
        Dm j j * CQ.conj (V j j j i) := by
        simp only [Finset.sum_add_distrib, sum_if_pair]
        ring

/-- C8 (amended).  With the reduced tensors derived consistently from
`V_ijkl`, full and partial assemblies agree for every density input —
provided `V_ijkl` has the two-electron symmetries
`V[a,b,c,d] = V[b,a,d,c]` (particle exchange) and
`V[a,b,c,d] = conj(V[c,d,a,b])` (Hermiticity) and vanishes on every
index quadruple with three or more distinct indices (the sparsity the
reduced tensors can represent; without it the claim fails, see the
counterexample).  `hartree` agrees with `hartree_partial` for single and
spin-list densities, and `fock` agrees with `fock_partial` on
single-matrix densities. -/
theorem hartree_fock_partial_agree {N : Nat} (V : Tensor4 N)
    (hex : ∀ a b c d, V a b c d = V b a d c)
    (hherm : ∀ a b c d, V a b c d = CQ.conj (V c d a b))
    (hsp : ∀ a b c d : Fin N,
      2 < ({a, b, c, d} : Finset (Fin N)).card → V a b c d = 0)
    (D : DensityInput N) (Ds : Mat N N) :
    hartree D V =
      hartree_partial D (vijijOf V) (vijjiOf V) (some (viijjOf V))
        (some (viiijOf V)) none ∧
      fock (.single Ds) V = .single (fockSingle Ds V) ∧
      fock_partial (.single Ds) (vijijOf V) (vijjiOf V) (some (viijjOf V))
        (some (viiijOf V)) none = .ok (fockSingle Ds V) := by
  refine ⟨?_, rfl, ?_⟩
  · refine Matrix.ext fun i j => ?_
    by_cases hij : i = j
    · simp only [hartree, hartree_partial, Matrix.of_apply, hij, if_pos,
        Option.getD_some]
      rw [hartree_diag hherm hsp (normD D) j]
      simp [vijijOf, viiijOf]
    · simp only [hartree, hartree_partial, Matrix.of_apply, if_neg hij,
        Option.getD_some]
      rw [hartree_off hex hherm hsp (normD D) hij]
      simp [viijjOf, vijjiOf, viiijOf]
  · simp only [ fock_partial]
    refine congrArg Except.ok (Matrix.ext fun i j => ?_)
    by_cases hij : i = j
    · simp only [fockSingle, Matrix.of_apply, hij, if_pos, Option.getD_some]
      rw [fock_diag hex hherm hsp Ds j]
      simp only [vijijOf, vijjiOf, viiijOf, Matrix.of_apply]
      ring
    · simp only [fockSingle, Matrix.of_apply, if_neg hij, Option.getD_some]
      rw [fock_off hex hherm hsp Ds hij]
      simp only [vijijOf, viijjOf, viiijOf, Matrix.of_apply]
      ring

/-- C8, counterexample.  The tensor `Vcex` is real and invariant under
every permutation of its four indices — symmetric in any sense — and
its reduced tensors are derived consistently, yet `hartree` and
`hartree_partial` disagree on the density `Dcex` (entry `(0,0)` is 4
versus 0): every nonzero entry of `Vcex` carries three distinct orbital
indices, which the reduced tensors cannot see, so the claim is false as
stated for arbitrary symmetric tensors. -/
theorem hartree_partial_cex :
    hartree (.single Dcex) Vcex ≠
      hartree_partial (.single Dcex) (vijijOf Vcex) (vijjiOf Vcex)
        (some (viijjOf Vcex)) (some (viiijOf Vcex)) none := by
  decide!

/-- Witness for C8's amended theorem on a one-orbital system. -/
theorem hartree_fock_partial_agree_witness :
    hartree (.single Done) Vone =
      hartree_partial (.single Done) (vijijOf Vone) (vijjiOf Vone)
        (some (viijjOf Vone)) (some (viiijOf Vone)) none ∧
      fock (.single Done) Vone = .single (fockSingle Done Vone) ∧
      fock_partial (.single Done) (vijijOf Vone) (vijjiOf Vone)
        (some (viijjOf Vone)) (some (viiijOf Vone)) none =
        .ok (fockSingle Done Vone) :=
  hartree_fock_partial_agree Vone (by decide!) (by decide!) (by decide!)
    (.single Done) Done
